import Mathlib

/-!
Shallow embedding of the crafting-calculator resolution engine
(src/stack.rs, src/recipe.rs, src/calculator.rs).

Counts are modelled as `Nat` (the Rust `Count = usize`); the one place where
the machine width of `usize` matters for a claim (silent wraparound of
unchecked arithmetic in release builds) is modelled separately with an
explicit `% 2 ^ 64`.

Hash maps (`HashMap<String, _>`) are modelled as association lists with
unique keys; iteration order, where the source iterates a map, is modelled
as insertion order, one admissible behaviour of the source's unspecified
hash iteration order.  The `DoublePriorityQueue` is modelled as a list of
(key, priority) pairs; `pop_min` removes the first-inserted entry of
minimal priority (ties in the source are container-internal; every concrete
run used in a theorem below has no ties at any pop).
-/

/-- A stack of some number of all the same item (source: `Stack`). -/
structure Stack where
  item : String
  count : Nat
deriving DecidableEq, Repr

/-- A known way to produce a stack from a set of other stacks (source: `Recipe`). -/
structure Recipe where
  result : Stack
  method : String
  ingredients : List Stack
deriving DecidableEq, Repr

/-- Association-list lookup (HashMap::get). -/
def mapGet {α : Type} : List (String × α) → String → Option α
  | [], _ => none
  | (k', v) :: t, k => if k' = k then some v else mapGet t k

/-- Association-list insert/replace (HashMap::insert): keeps the position of
an existing binding, appends a new one. -/
def mapInsert {α : Type} : List (String × α) → String → α → List (String × α)
  | [], k, v => [(k, v)]
  | (k', v') :: t, k, v => if k' = k then (k', v) :: t else (k', v') :: mapInsert t k v

/-- Association-list removal (HashMap::remove / remove_entry). -/
def mapRemove {α : Type} : List (String × α) → String → List (String × α)
  | [], _ => []
  | (k', v) :: t, k => if k' = k then t else (k', v) :: mapRemove t k

/-- Count lookup defaulting to zero for an absent key. -/
def getCount (m : List (String × Nat)) (k : String) : Nat :=
  (mapGet m k).getD 0

/-- Add `v` to the count stored for `k`, inserting the entry if absent
(source: the `Some(count) => *count += ..` / `None => insert` match in
`add_resource`, and `to_craft.entry(..).or_default() += ..`). -/
def addCount (m : List (String × Nat)) (k : String) (v : Nat) : List (String × Nat) :=
  match mapGet m k with
  | some old => mapInsert m k (old + v)
  | none => mapInsert m k v

/-- List-membership test for item names. -/
def memStr : List String → String → Bool
  | [], _ => false
  | a :: t, k => if a = k then true else memStr t k

/-! ### The priority queue (`DoublePriorityQueue<&str, usize>`) -/

/-- The queue: (key, priority) pairs, unique keys, insertion order. -/
abbrev PQueue := List (String × Nat)

/-- `pop_min`: remove an entry of minimal priority (first-inserted among
minima). -/
def popMin : PQueue → Option ((String × Nat) × PQueue)
  | [] => none
  | (k, p) :: t =>
    match popMin t with
    | none => some ((k, p), t)
    | some ((k', p'), t') =>
      if p ≤ p' then some ((k, p), t) else some ((k', p'), (k, p) :: t')

/-- `peek_max`: the largest priority present. -/
def peekMaxPrio : PQueue → Option Nat
  | [] => none
  | (_, p) :: t =>
    match peekMaxPrio t with
    | none => some p
    | some m => some (max p m)

/-- `push_increase`: insert, or raise (never lower) the priority of an
existing key. -/
def pushIncrease (q : PQueue) (k : String) (p : Nat) : PQueue :=
  match mapGet q k with
  | none => q ++ [(k, p)]
  | some old => if old < p then mapInsert q k p else q

/-- Stable ascending insertion by priority, used to model
`into_ascending_sorted_vec` (tie order among equal priorities is
unspecified in the source; stable order is one admissible choice). -/
def insertAsc (x : String × Nat) : List (String × Nat) → List (String × Nat)
  | [] => [x]
  | y :: t => if x.2 ≤ y.2 then x :: y :: t else y :: insertAsc x t

/-- Sort queue entries ascending by priority. -/
def sortAsc : List (String × Nat) → List (String × Nat)
  | [] => []
  | x :: t => insertAsc x (sortAsc t)

/-- Priority-range compaction (source lines 115-123): extract all entries in
ascending priority order and reinsert them with rank-based priorities. -/
def compact (q : PQueue) : PQueue :=
  (sortAsc q).enum.map (fun e => (e.2.1, e.1))

/-- `usize::MAX` for the 64-bit targets the crate builds for. -/
def USIZE_MAX : Nat := 2 ^ 64 - 1

/-! ### Phase A: demand propagation -/

/-- The "In Storage" pseudo-recipe built at source lines 85-89. -/
def storageRecipe (item : String) : Recipe :=
  ⟨⟨item, 1⟩, "In Storage", [⟨item, 1⟩]⟩

/-- The "Raw Material" pseudo-recipe built at source lines 130-134. -/
def rawRecipe (item : String) : Recipe :=
  ⟨⟨item, 1⟩, "Raw Material", [⟨item, 1⟩]⟩

/-- `(1..).find(|i| i * per_execution >= count)` (source line 99).  The Rust
iteration is unbounded; it terminates exactly when some `i ≥ 1` satisfies
`i * per ≥ count`, and for `per ≥ 1`, `count ≥ 1` the answer is at most
`count`, so searching `[1, …, count]` is faithful: `none` models the
non-terminating search (`per_execution = 0` with positive demand). -/
def firstRepeat (per count : Nat) : Option Nat :=
  (List.range' 1 count).find? (fun i => count ≤ i * per)

/-- The transient state of one phase-A run (`materials`, `crafted_materials`,
`to_craft`, `craft_order`, `steps` in `calculate_steps`). -/
structure AState where
  materials : List (String × Nat)
  crafted : List (String × Nat)
  toCraft : List (String × Nat)
  queue : PQueue
  steps : List (Recipe × Nat)
deriving DecidableEq, Repr

/-- Draw from the crafted-surplus pool (source lines 76-80): decrement both
the pool and the demand by their minimum.  Returns (new pool, new demand). -/
def craftedDraw (crafted : List (String × Nat)) (item : String) (count : Nat) :
    List (String × Nat) × Nat :=
  match mapGet crafted item with
  | none => (crafted, count)
  | some avail => (mapInsert crafted item (avail - min avail count), count - min avail count)

/-- Draw from the resource pool (source lines 81-95): only when a positive
amount is retrieved are the pool and demand decremented.  Returns
(new pool, retrieved, new demand). -/
def materialsDraw (materials : List (String × Nat)) (item : String) (count : Nat) :
    List (String × Nat) × Nat × Nat :=
  match mapGet materials item with
  | none => (materials, 0, count)
  | some avail =>
    if 0 < min avail count then
      (mapInsert materials item (avail - min avail count), min avail count,
        count - min avail count)
    else (materials, 0, count)

/-- Enqueue all ingredients of an emitted recipe step (source lines 110-127):
for each ingredient in order, compute `next_priority` as one more than the
current queue maximum (zero for an empty queue, wrapping as `usize`
addition does in release builds), compact the queue if the priority range
is exhausted, `push_increase` the ingredient, and add
`ingredient.count * repeats` to its outstanding demand.  Returns
(queue, toCraft). -/
def pushIngredients : List Stack → Nat → PQueue → List (String × Nat) →
    PQueue × List (String × Nat)
  | [], _, q, tc => (q, tc)
  | ing :: rest, repeats, q, tc =>
    let next := match peekMaxPrio q with
      | some p => (p + 1) % 2 ^ 64
      | none => 0
    let q1 := if next = USIZE_MAX then compact q else q
    pushIngredients rest repeats (pushIncrease q1 ing.item next)
      (addCount tc ing.item (ing.count * repeats))

/-- The body of the phase-A work loop for one popped item (source lines
75-139); the popped entry has already been removed from `st.queue`.
Returns `none` when the source would not terminate (the unbounded repeat
search with a zero per-execution yield). -/
def processItem (recipes : String → Option Recipe) (st : AState) (item : String) :
    Option AState :=
  match mapGet st.toCraft item with
  | none => some st
  | some count0 =>
    let tc1 := mapRemove st.toCraft item
    let cd := craftedDraw st.crafted item count0
    let md := materialsDraw st.materials item cd.2
    let steps1 :=
      if 0 < md.2.1 then st.steps ++ [(storageRecipe item, md.2.1)] else st.steps
    if 0 < md.2.2 then
      match recipes item with
      | some rec =>
        match firstRepeat rec.result.count md.2.2 with
        | none => none
        | some repeats =>
          let produced := rec.result.count * repeats
          let crafted2 :=
            if md.2.2 < produced then mapInsert cd.1 item (produced - md.2.2) else cd.1
          let pq := pushIngredients rec.ingredients repeats st.queue tc1
          some ⟨md.1, crafted2, pq.2, pq.1, steps1 ++ [(rec, repeats)]⟩
      | none =>
        some ⟨md.1, cd.1, tc1, st.queue, steps1 ++ [(rawRecipe item, md.2.2)]⟩
    else some ⟨md.1, cd.1, tc1, st.queue, steps1⟩

/-- The phase-A work loop (`while let Some((next_craft, _)) = craft_order.pop_min()`),
fuelled: `none` means the fuel ran out (or an inner unbounded search would
not terminate) before the queue emptied. -/
def runA (recipes : String → Option Recipe) : Nat → AState → Option AState
  | 0, _ => none
  | fuel + 1, st =>
    match popMin st.queue with
    | none => some st
    | some ((item, _), q') =>
      match processItem recipes { st with queue := q' } item with
      | none => none
      | some st' => runA recipes fuel st'

/-- The initial phase-A state (source lines 67-73): materials cloned from the
pre-supplied pool, crafted surplus empty, demand and queue seeded with the
target. -/
def initialAState (pool : List (String × Nat)) (target : Stack) : AState :=
  ⟨pool, [], [(target.item, target.count)], [(target.item, 0)], []⟩

/-! ### Phase B: topological compaction -/

/-- Merge a step into a per-result-item bucket (source lines 155-160,
176-181, 211-216): an existing entry keeps its first recipe and sums the
repeat counts, a new entry is appended. -/
def bucketAdd (b : List (String × (Recipe × Nat))) (rec : Recipe) (n : Nat) :
    List (String × (Recipe × Nat)) :=
  match mapGet b rec.result.item with
  | some rn => mapInsert b rec.result.item (rn.1, rn.2 + n)
  | none => b ++ [(rec.result.item, (rec, n))]

/-- Drain a step list into (bucket of steps whose method is `m`, the
remaining steps in order) — the "separate out" loops at source lines
148-168 and 170-184. -/
def partitionMethodAux (m : String) (b : List (String × (Recipe × Nat)))
    (r : List (Recipe × Nat)) : List (Recipe × Nat) →
    List (String × (Recipe × Nat)) × List (Recipe × Nat)
  | [] => (b, r)
  | (rec, n) :: t =>
    if rec.method = m then partitionMethodAux m (bucketAdd b rec n) r t
    else partitionMethodAux m b (r ++ [(rec, n)]) t

/-- Partition a step list by method label `m`. -/
def partitionMethod (m : String) (steps : List (Recipe × Nat)) :
    List (String × (Recipe × Nat)) × List (Recipe × Nat) :=
  partitionMethodAux m [] [] steps

/-- The phase-B staged-pass state: emitted plan prefix (`checked_steps`),
available item set (`available_materials`), the In-Storage bucket
(`from_storage`), and the catalog steps still to place (`steps_to_check`). -/
structure BState where
  checked : List (Recipe × Nat)
  available : List String
  fromStorage : List (String × (Recipe × Nat))
  pending : List (Recipe × Nat)
deriving DecidableEq, Repr

/-- Eligibility of one ingredient of a step with the given repeat count
(source lines 190-198): the item is already available, or the In-Storage
bucket stocks enough (`recipe.result.count * rec_repeats >= stack.count * repeats`). -/
def eligibleB (av : List String) (fs : List (String × (Recipe × Nat)))
    (repeats : Nat) (ing : Stack) : Bool :=
  memStr av ing.item ||
    (match mapGet fs ing.item with
     | some rn => decide (ing.count * repeats ≤ rn.1.result.count * rn.2)
     | none => false)

/-- For each ingredient of an eligible step, move the In-Storage bucket entry
(if any) into the plan, scaled by the step's repeat factor, and mark the
item available (source lines 202-210).  Returns (checked, available,
fromStorage). -/
def consumeStorage : List Stack → Nat → List (Recipe × Nat) → List String →
    List (String × (Recipe × Nat)) →
    List (Recipe × Nat) × List String × List (String × (Recipe × Nat))
  | [], _, checked, av, fs => (checked, av, fs)
  | ing :: rest, repeats, checked, av, fs =>
    match mapGet fs ing.item with
    | none => consumeStorage rest repeats checked av fs
    | some rn =>
      consumeStorage rest repeats (checked ++ [(rn.1, rn.2 * repeats)])
        (av ++ [ing.item]) (mapRemove fs ing.item)

/-- One stage's drain of `steps_to_check` (source lines 189-217): eligible
steps consume storage entries and merge into the current stage's bucket,
ineligible steps carry over.  Returns (checked, available, fromStorage,
currentStage, carriedOver). -/
def stageScan : List (Recipe × Nat) → List (Recipe × Nat) → List String →
    List (String × (Recipe × Nat)) → List (String × (Recipe × Nat)) →
    List (Recipe × Nat) →
    List (Recipe × Nat) × List String × List (String × (Recipe × Nat)) ×
      List (String × (Recipe × Nat)) × List (Recipe × Nat)
  | [], checked, av, fs, cur, tmp => (checked, av, fs, cur, tmp)
  | (rec, n) :: rest, checked, av, fs, cur, tmp =>
    if rec.ingredients.all (eligibleB av fs n) then
      match consumeStorage rec.ingredients n checked av fs with
      | (checked', av', fs') =>
        stageScan rest checked' av' fs' (bucketAdd cur rec n) tmp
    else stageScan rest checked av fs cur (tmp ++ [(rec, n)])

/-- One full stage (source lines 187-223): drain the pending steps, then emit
the merged current stage and mark its items available. -/
def stage (st : BState) : BState :=
  match stageScan st.pending st.checked st.available st.fromStorage [] [] with
  | (checked, av, fs, cur, tmp) =>
    ⟨checked ++ cur.map (fun e => e.2), av ++ cur.map (fun e => e.1), fs, tmp⟩

/-- The staged-pass loop (`while !steps_to_check.is_empty()`), fuelled:
`none` means the fuel ran out before the pending list emptied. -/
def runB : Nat → BState → Option (List (Recipe × Nat))
  | 0, st => if st.pending.isEmpty then some st.checked else none
  | fuel + 1, st =>
    if st.pending.isEmpty then some st.checked else runB fuel (stage st)

/-- The full recomputation `calculate_steps` (source lines 66-226): phase A
from the seeded state, then the raw-material and in-storage separations,
then the staged passes.  `none` models a run the source would not
complete within the given fuel (or at all). -/
def calcSteps (recipes : String → Option Recipe) (pool : List (String × Nat))
    (target : Stack) (fuelA fuelB : Nat) : Option (List (Recipe × Nat)) :=
  match runA recipes fuelA (initialAState pool target) with
  | none => none
  | some st =>
    match partitionMethod "Raw Material" st.steps with
    | (rawB, rest1) =>
      match partitionMethod "In Storage" rest1 with
      | (storB, pending0) =>
        runB fuelB
          ⟨rawB.map (fun e => e.2), rawB.map (fun e => e.1), storB, pending0⟩

/-! ### The Calculator and its public operations -/

/-- The calculator's persistent state (source struct `Calculator`; the
`materials` and `crafted_materials` fields are recomputation scratch,
overwritten at the start of every `calculate_steps`, and live inside
`AState` here). -/
structure Calculator where
  recipes : List (String × Recipe)
  target : Stack
  initialMaterials : List (String × Nat)
  steps : List (Recipe × Nat)
deriving DecidableEq, Repr

/-- Recipe-catalog lookup (`self.recipes.get(..)`). -/
def lookupRecipe (rs : List (String × Recipe)) : String → Option Recipe :=
  fun k => mapGet rs k

/-- `Calculator::new()`: no recipes, target `Air (1)`, empty pools, no steps. -/
def Calculator.new : Calculator :=
  ⟨[], ⟨"Air", 1⟩, [], []⟩

/-- `Calculator::with_recipes`. -/
def withRecipes (rs : List (String × Recipe)) : Calculator :=
  ⟨rs, ⟨"Air", 1⟩, [], []⟩

/-- Run `calculate_steps` on the current state and store the new plan. -/
def recompute (c : Calculator) (fuelA fuelB : Nat) : Option Calculator :=
  match calcSteps (lookupRecipe c.recipes) c.initialMaterials c.target fuelA fuelB with
  | some s => some { c with steps := s }
  | none => none

/-- `add_resource`: merge the stack into the pre-supplied pool (additive),
then recompute. -/
def addResource (c : Calculator) (s : Stack) (fuelA fuelB : Nat) : Option Calculator :=
  recompute { c with initialMaterials := addCount c.initialMaterials s.item s.count }
    fuelA fuelB

/-- Insert a list of recipes keyed by result item, later entries winning. -/
def insertRecipes (rs : List Recipe) (m : List (String × Recipe)) :
    List (String × Recipe) :=
  rs.foldl (fun m r => mapInsert m r.result.item r) m

/-- `add_recipes`: insert/override catalog entries, then recompute. -/
def addRecipes (c : Calculator) (rs : List Recipe) (fuelA fuelB : Nat) : Option Calculator :=
  recompute { c with recipes := insertRecipes rs c.recipes } fuelA fuelB

/-- `set_recipe`: `add_recipes` with a singleton list. -/
def setRecipe (c : Calculator) (r : Recipe) (fuelA fuelB : Nat) : Option Calculator :=
  addRecipes c [r] fuelA fuelB

/-- `set_target`: replace the target, then recompute. -/
def setTarget (c : Calculator) (t : Stack) (fuelA fuelB : Nat) : Option Calculator :=
  recompute { c with target := t } fuelA fuelB

/-! ### The machine-width arithmetic of `add_resource` -/

/-- `usize` addition as Rust release builds compile it (overflow-checks off):
wrapping modulo `2 ^ 64`. -/
def wrapAdd64 (a b : Nat) : Nat := (a + b) % 2 ^ 64

/-- The pool update of `add_resource` (source lines 56-62) at the machine
width of `Count = usize`: the `*count += resource.count()` accumulation
wraps silently in release builds; no error value exists in the signature. -/
def addCountWrapped (m : List (String × Nat)) (k : String) (v : Nat) :
    List (String × Nat) :=
  match mapGet m k with
  | some old => mapInsert m k (wrapAdd64 old v)
  | none => mapInsert m k v

/-! ### Concrete inputs used by the counterexample/bug theorems -/

/-- The spec's ordering invariant (claim C1) as a decidable predicate on a
plan: for every pair of entries `s_i`, `s_j` with `i < j`, no ingredient
of `s_i`'s recipe is the item produced by `s_j`'s recipe. -/
def specOrderingInvariant (plan : List (Recipe × Nat)) : Bool :=
  plan.enum.all fun si =>
    plan.enum.all fun sj =>
      !decide (si.1 < sj.1) ||
        si.2.1.ingredients.all fun ing => !decide (ing.item = sj.2.1.result.item)

/-- An acyclic catalog on which phase B emits a consumer before its
ingredient's producing step: `R` needs `P` and `Q`, `P` needs one `g`,
`Q` needs four `g`, `g` is crafted from `W`. -/
def c1Catalog : List (String × Recipe) :=
  [("R", ⟨⟨"R", 1⟩, "Craft", [⟨"P", 1⟩, ⟨"Q", 1⟩]⟩),
   ("P", ⟨⟨"P", 1⟩, "Craft", [⟨"g", 1⟩]⟩),
   ("Q", ⟨⟨"Q", 1⟩, "Craft", [⟨"g", 4⟩]⟩),
   ("g", ⟨⟨"g", 1⟩, "Craft", [⟨"W", 1⟩]⟩)]

/-- The plan the engine computes from `c1Catalog` with two `g` pre-supplied
and target `R (1)`. -/
def c1Plan : List (Recipe × Nat) :=
  [(rawRecipe "W", 3), (storageRecipe "g", 2),
   (⟨⟨"P", 1⟩, "Craft", [⟨"g", 1⟩]⟩, 1),
   (⟨⟨"Q", 1⟩, "Craft", [⟨"g", 4⟩]⟩, 1),
   (⟨⟨"g", 1⟩, "Craft", [⟨"W", 1⟩]⟩, 3),
   (⟨⟨"R", 1⟩, "Craft", [⟨"P", 1⟩, ⟨"Q", 1⟩]⟩, 1)]

/-- An acyclic catalog (with positive yields) on which `calculate_steps`
does not terminate: the recipe for `g` carries the reserved method label
"In Storage", so phase B merges it into the `from_storage` bucket, whose
merged entry never covers the consumer's need. -/
def c3Catalog : List (String × Recipe) :=
  [("g", ⟨⟨"g", 2⟩, "In Storage", [⟨"W", 1⟩]⟩),
   ("X", ⟨⟨"X", 1⟩, "Craft", [⟨"g", 7⟩]⟩)]

/-- The phase-A result on `c3Catalog` with one `g` pre-supplied and target
`X (1)`. -/
def c3AfterA : AState :=
  ⟨[("g", 0)], [], [], [],
   [(⟨⟨"X", 1⟩, "Craft", [⟨"g", 7⟩]⟩, 1), (storageRecipe "g", 1),
    (⟨⟨"g", 2⟩, "In Storage", [⟨"W", 1⟩]⟩, 3), (rawRecipe "W", 3)]⟩

/-- The phase-B state reached from `c3AfterA`, a fixed point of `stage` with
a non-empty pending list. -/
def c3Stalled : BState :=
  ⟨[(rawRecipe "W", 3)], ["W"], [("g", (storageRecipe "g", 4))],
   [(⟨⟨"X", 1⟩, "Craft", [⟨"g", 7⟩]⟩, 1)]⟩

/-- The last recipe in a list whose result item is `k`, if any — the binding
that survives a left-to-right catalog insertion of the list. -/
def lastWins : List Recipe → String → Option Recipe
  | [], _ => none
  | r :: t, k =>
    match lastWins t k with
    | some x => some x
    | none => if r.result.item = k then some r else none

/-! ### Association-list lemmas -/

theorem mapGet_mapInsert {α : Type} (m : List (String × α)) (k k' : String) (v : α) :
    mapGet (mapInsert m k v) k' = if k = k' then some v else mapGet m k' := by
  induction m with
  | nil => by_cases h : k = k' <;> simp [mapInsert, mapGet, h]
  | cons e t ih =>
    obtain ⟨ke, ve⟩ := e
    by_cases h1 : ke = k
    · subst h1
      by_cases h2 : ke = k' <;> simp [mapInsert, mapGet, h2]
    · by_cases h2 : ke = k'
      · subst h2
        have hkk : k ≠ ke := fun hh => h1 hh.symm
        simp [mapInsert, mapGet, h1, hkk]
      · simp [mapInsert, mapGet, h1, h2, ih]

theorem mapGet_mapRemove_ne {α : Type} (m : List (String × α)) (k k' : String)
    (h : k ≠ k') : mapGet (mapRemove m k) k' = mapGet m k' := by
  induction m with
  | nil => simp [mapRemove]
  | cons e t ih =>
    obtain ⟨ke, ve⟩ := e
    by_cases h1 : ke = k
    · subst h1
      simp [mapRemove, mapGet, h]
    · simp [mapRemove, mapGet, h1, ih]

theorem getCount_mapInsert_self (m : List (String × Nat)) (k : String) (v : Nat) :
    getCount (mapInsert m k v) k = v := by
  simp [getCount, mapGet_mapInsert]

theorem getCount_addCount_self (m : List (String × Nat)) (k : String) (v : Nat) :
    getCount (addCount m k v) k = getCount m k + v := by
  unfold addCount
  cases h : mapGet m k with
  | none => simp [getCount, h, mapGet_mapInsert]
  | some old => simp [getCount, h, mapGet_mapInsert]

theorem mapGet_addCount_ne (m : List (String × Nat)) (k k' : String) (v : Nat)
    (h : k ≠ k') : mapGet (addCount m k v) k' = mapGet m k' := by
  unfold addCount
  cases hm : mapGet m k <;> simp [mapGet_mapInsert, h]

/-! ### The repeat-count search -/

theorem firstRepeat_spec (per count : Nat) (hper : 0 < per) (hc : 0 < count) :
    ∃ r, firstRepeat per count = some r ∧ 1 ≤ r ∧ count ≤ r * per ∧
      ∀ j, 1 ≤ j → j < r → j * per < count := by
  unfold firstRepeat
  cases hfind : (List.range' 1 count).find? (fun i => decide (count ≤ i * per)) with
  | none =>
    exfalso
    rw [List.find?_range'_eq_none] at hfind
    have hcount := hfind count hc (by omega)
    have : count ≤ count * per := by
      calc count = count * 1 := (Nat.mul_one count).symm
        _ ≤ count * per := Nat.mul_le_mul_left count hper
    simp [this] at hcount
  | some r =>
    rw [List.find?_range'_eq_some] at hfind
    obtain ⟨hp, hmem, hmin⟩ := hfind
    rw [List.mem_range'_1] at hmem
    refine ⟨r, rfl, hmem.1, by simpa using hp, fun j h1 hj => ?_⟩
    have := hmin j h1 hj
    simp at this
    omega

/-! ### Claim theorems -/

/-- Claim C6 (code_bug evidence): the `add_resource` count accumulation at
the machine width of `Count = usize` silently wraps modulo `2 ^ 64`
instead of reporting an error: adding one more unit of an item whose pool
count is already `usize::MAX` leaves the pool holding zero of it, and the
operation's result carries no error indication at all. -/
theorem c6_add_resource_wraps_silently :
    addCountWrapped [("Iron", 2 ^ 64 - 1)] "Iron" 1 = [("Iron", 0)] ∧
    getCount (addCountWrapped [("Iron", 2 ^ 64 - 1)] "Iron" 1) "Iron" = 0 := by
  constructor
  · show addCountWrapped [("Iron", 2 ^ 64 - 1)] "Iron" 1 = [("Iron", 0)]
    unfold addCountWrapped wrapAdd64
    norm_num [mapGet, mapInsert]
  · unfold addCountWrapped wrapAdd64
    norm_num [mapGet, mapInsert, getCount]

/-- Claim C8: `add_resource` is additive on the resource pool: the updated
pool holds the previous count (zero if absent) plus the added stack's
count under the stack's item, never decreases that count, and leaves
every other item's pool entry unchanged. -/
theorem c8_add_resource_additive (c : Calculator) (s : Stack) (fuelA fuelB : Nat)
    (c' : Calculator) (h : addResource c s fuelA fuelB = some c') :
    getCount c'.initialMaterials s.item = getCount c.initialMaterials s.item + s.count ∧
    getCount c.initialMaterials s.item ≤ getCount c'.initialMaterials s.item ∧
    ∀ k, k ≠ s.item → mapGet c'.initialMaterials k = mapGet c.initialMaterials k := by
  have hpool : c'.initialMaterials = addCount c.initialMaterials s.item s.count := by
    unfold addResource recompute at h
    cases hc : calcSteps
        (lookupRecipe c.recipes)
        (addCount c.initialMaterials s.item s.count) c.target fuelA fuelB with
    | none => rw [hc] at h; cases h
    | some st => rw [hc] at h; cases h; rfl
  rw [hpool]
  refine ⟨getCount_addCount_self _ _ _, ?_, ?_⟩
  · rw [getCount_addCount_self]
    exact Nat.le_add_right _ _
  · intro k hk
    exact mapGet_addCount_ne _ _ _ _ (fun hh => hk hh.symm)

/-- Witness for C8 at a concrete input: adding `Iron (2)` to a calculator
already holding one `Iron` and one `Coal` yields three `Iron` and leaves
`Coal` untouched. -/
theorem c8_witness :
    addResource ⟨[], ⟨"Air", 1⟩, [("Iron", 1), ("Coal", 4)], []⟩ ⟨"Iron", 2⟩ 3 1 =
      some ⟨[], ⟨"Air", 1⟩, [("Iron", 3), ("Coal", 4)], [(rawRecipe "Air", 1)]⟩ ∧
    getCount [("Iron", 3), ("Coal", 4)] "Iron" = getCount [("Iron", 1), ("Coal", 4)] "Iron" + 2 ∧
    mapGet [("Iron", 3), ("Coal", 4)] "Coal" = mapGet [("Iron", 1), ("Coal", 4)] "Coal" := by
  refine ⟨by decide, ?_, ?_⟩
  · exact (c8_add_resource_additive ⟨[], ⟨"Air", 1⟩, [("Iron", 1), ("Coal", 4)], []⟩
      ⟨"Iron", 2⟩ 3 1 ⟨[], ⟨"Air", 1⟩, [("Iron", 3), ("Coal", 4)], [(rawRecipe "Air", 1)]⟩
      (by decide)).1
  · exact (c8_add_resource_additive ⟨[], ⟨"Air", 1⟩, [("Iron", 1), ("Coal", 4)], []⟩
      ⟨"Iron", 2⟩ 3 1 ⟨[], ⟨"Air", 1⟩, [("Iron", 3), ("Coal", 4)], [(rawRecipe "Air", 1)]⟩
      (by decide)).2.2 "Coal" (by decide)

/-- Counterexample for claim C4 as stated: processing target `T` (popped at
depth `0`) whose recipe needs one `A` enqueues `A` with priority `0` —
one more than the current queue maximum, which is empty after the pop —
not with the popped item's depth plus one (`1`). -/
theorem c4_counterexample :
    (processItem (lookupRecipe [("T", ⟨⟨"T", 1⟩, "Craft", [⟨"A", 1⟩]⟩)])
        { initialAState [] ⟨"T", 1⟩ with queue := [] } "T").map AState.queue =
      some [("A", 0)] ∧ (0 : Nat) ≠ 0 + 1 := by
  exact ⟨by decide, by decide⟩

/-- Counterexample for claim C5 as stated: the single "Raw Material" step
emitted for target `A (1)` with no recipes carries the pseudo-recipe
`⟨⟨"A", 1⟩, "Raw Material", [⟨"A", 1⟩]⟩`, whose ingredient list is not
empty — it lists the produced item itself. -/
theorem c5_counterexample :
    (setTarget Calculator.new ⟨"A", 1⟩ 9 9).map Calculator.steps =
      some [(rawRecipe "A", 1)] ∧ (rawRecipe "A").ingredients ≠ [] := by
  exact ⟨by decide, by decide⟩

/-- Counterexample for claim C7 as stated: `add_resource` is additive, so
calling it twice in a row with the equal argument `X (1)` (target `X (3)`,
no recipes) yields plan `[(Raw X, 2)]` after the first call but
`[(Raw X, 1)]` after the second. -/
theorem c7_counterexample :
    ((setTarget Calculator.new ⟨"X", 3⟩ 9 9).bind
        (fun c => addResource c ⟨"X", 1⟩ 9 9)).map Calculator.steps =
      some [(rawRecipe "X", 2)] ∧
    (((setTarget Calculator.new ⟨"X", 3⟩ 9 9).bind
        (fun c => addResource c ⟨"X", 1⟩ 9 9)).bind
        (fun c => addResource c ⟨"X", 1⟩ 9 9)).map Calculator.steps =
      some [(rawRecipe "X", 1)] ∧
    [(rawRecipe "X", 2)] ≠ [(rawRecipe "X", 1)] := by
  exact ⟨by decide, by decide, by decide⟩

/-- Counterexample for claim C9 as stated: a target with no catalog recipe
does not always yield a single full-count Raw Material step — a
zero-count target yields an empty plan, and a target covered by the
pre-supplied pool (five `X` in storage, target `X (3)`) also yields an
empty plan (the In-Storage step is dropped because no catalog step
consumes it). -/
theorem c9_counterexample :
    (setTarget Calculator.new ⟨"X", 0⟩ 9 9).map Calculator.steps = some [] ∧
    ((addResource Calculator.new ⟨"X", 5⟩ 9 9).bind
        (fun c => setTarget c ⟨"X", 3⟩ 9 9)).map Calculator.steps = some [] ∧
    ([] : List (Recipe × Nat)) ≠ [(rawRecipe "X", 0)] ∧
    ([] : List (Recipe × Nat)) ≠ [(rawRecipe "X", 3)] := by
  exact ⟨by decide, by decide, by decide, by decide⟩

/-! ### Claim C2: minimal repeat count and crafted surplus -/

/-- Under hypotheses that put both draw pools at zero for the popped item,
`processItem` on an item with remaining demand `c > 0` and a catalog
recipe takes the recipe branch, and its result state is the one written
out here (repeat count `r` from the unbounded search, surplus insert,
ingredients enqueued). -/
theorem processItem_craft_eq
    (recipes : String → Option Recipe) (st : AState) (item : String)
    (c : Nat) (rec : Recipe)
    (hd : mapGet st.toCraft item = some c) (hc : 0 < c)
    (hcr : getCount st.crafted item = 0) (hm : getCount st.materials item = 0)
    (hrec : recipes item = some rec) (r : Nat)
    (hfr : firstRepeat rec.result.count c = some r) :
    processItem recipes st item = some
      ⟨st.materials,
       (if c < rec.result.count * r
        then mapInsert (craftedDraw st.crafted item c).1 item (rec.result.count * r - c)
        else (craftedDraw st.crafted item c).1),
       (pushIngredients rec.ingredients r st.queue (mapRemove st.toCraft item)).2,
       (pushIngredients rec.ingredients r st.queue (mapRemove st.toCraft item)).1,
       st.steps ++ [(rec, r)]⟩ := by
  have hcd2 : (craftedDraw st.crafted item c).2 = c := by
    unfold craftedDraw
    cases hcg : mapGet st.crafted item with
    | none => rfl
    | some avail =>
      have h0 : avail = 0 := by simpa [getCount, hcg] using hcr
      subst h0
      simp
  have hmd : materialsDraw st.materials item c = (st.materials, 0, c) := by
    unfold materialsDraw
    cases hmg : mapGet st.materials item with
    | none => rfl
    | some avail =>
      have h0 : avail = 0 := by simpa [getCount, hmg] using hm
      subst h0
      simp
  unfold processItem
  rw [hd]
  simp only [hcd2, hmd, hrec, hfr]
  simp [hc]

/-- Claim C2: when demand `c > 0` remains for an item with a catalog recipe
of per-execution yield `Y > 0`, the emitted step's repeat count is the
smallest positive `r` with `r * Y ≥ c`, and the crafted-surplus pool ends
up holding exactly `r * Y - c` of the item (the stated hypotheses put the
two draw pools at zero for the item, so the remaining demand is the full
`c`). -/
theorem c2_repeats_minimal_and_surplus
    (recipes : String → Option Recipe) (st : AState) (item : String)
    (c : Nat) (rec : Recipe)
    (hd : mapGet st.toCraft item = some c) (hc : 0 < c)
    (hcr : getCount st.crafted item = 0) (hm : getCount st.materials item = 0)
    (hrec : recipes item = some rec) (hY : 0 < rec.result.count) :
    ∃ st' r, processItem recipes st item = some st' ∧
      st'.steps = st.steps ++ [(rec, r)] ∧
      1 ≤ r ∧ c ≤ r * rec.result.count ∧
      (∀ j, 1 ≤ j → j < r → j * rec.result.count < c) ∧
      getCount st'.crafted item = r * rec.result.count - c := by
  obtain ⟨r, hfr, hr1, hrY, hmin⟩ := firstRepeat_spec rec.result.count c hY hc
  have hcd1 : getCount (craftedDraw st.crafted item c).1 item = 0 := by
    unfold craftedDraw
    cases hcg : mapGet st.crafted item with
    | none => exact hcr
    | some avail =>
      have h0 : avail = 0 := by simpa [getCount, hcg] using hcr
      subst h0
      simp [getCount_mapInsert_self]
  have hpi := processItem_craft_eq recipes st item c rec hd hc hcr hm hrec r hfr
  refine ⟨_, r, hpi, rfl, hr1, hrY, hmin, ?_⟩
  show getCount
      (if c < rec.result.count * r
       then mapInsert (craftedDraw st.crafted item c).1 item (rec.result.count * r - c)
       else (craftedDraw st.crafted item c).1) item = r * rec.result.count - c
  by_cases hlt : c < rec.result.count * r
  · rw [if_pos hlt, getCount_mapInsert_self, Nat.mul_comm]
  · rw [if_neg hlt, hcd1]
    have h1 : rec.result.count * r ≤ c := Nat.not_lt.mp hlt
    have h2 : rec.result.count * r = r * rec.result.count := Nat.mul_comm _ _
    omega

/-- Witness for C2 at a concrete input: demand 5 of item `A`, recipe yield 2;
the emitted repeat count is 3 (the least `r` with `2r ≥ 5`) and the
surplus pool holds `3 * 2 - 5 = 1`. -/
theorem c2_witness :
    ∃ st' r, processItem (lookupRecipe [("A", ⟨⟨"A", 2⟩, "Forge", [⟨"B", 3⟩]⟩)])
        (⟨[], [], [("A", 5)], [], []⟩ : AState) "A" = some st' ∧
      st'.steps = ([] : List (Recipe × Nat)) ++ [(⟨⟨"A", 2⟩, "Forge", [⟨"B", 3⟩]⟩, r)] ∧
      1 ≤ r ∧ 5 ≤ r * 2 ∧ (∀ j, 1 ≤ j → j < r → j * 2 < 5) ∧
      getCount st'.crafted "A" = r * 2 - 5 :=
  c2_repeats_minimal_and_surplus (lookupRecipe [("A", ⟨⟨"A", 2⟩, "Forge", [⟨"B", 3⟩]⟩)])
    ⟨[], [], [("A", 5)], [], []⟩ "A" 5 ⟨⟨"A", 2⟩, "Forge", [⟨"B", 3⟩]⟩
    (by decide) (by decide) (by decide) (by decide) (by decide) (by decide)

/-! ### Claim C7: idempotence of the mutating operations -/

theorem mapGet_insertRecipes (rs : List Recipe) (m : List (String × Recipe)) (k : String) :
    mapGet (insertRecipes rs m) k =
      match lastWins rs k with
      | some r => some r
      | none => mapGet m k := by
  induction rs generalizing m with
  | nil => simp [insertRecipes, lastWins]
  | cons r t ih =>
    have hstep : insertRecipes (r :: t) m = insertRecipes t (mapInsert m r.result.item r) := rfl
    rw [hstep, ih]
    show _ = (match (match lastWins t k with
      | some x => some x
      | none => if r.result.item = k then some r else none) with
      | some x => some x
      | none => mapGet m k)
    cases lastWins t k with
    | some x => rfl
    | none =>
      rw [mapGet_mapInsert]
      by_cases hk : r.result.item = k <;> simp [hk]

theorem mapGet_insertRecipes_idem (rs : List Recipe) (m : List (String × Recipe)) (k : String) :
    mapGet (insertRecipes rs (insertRecipes rs m)) k = mapGet (insertRecipes rs m) k := by
  rw [mapGet_insertRecipes, mapGet_insertRecipes]
  cases hl : lastWins rs k <;> simp [hl]

/-- Claim C7 (amended): `set_target` called twice in a row with the same
stack yields the identical calculator (hence identical plan) both times,
and `add_recipes` called twice in a row with the same recipe list yields
the identical plan both times; `add_resource` is excluded, being additive
rather than idempotent (see the counterexample). -/
theorem c7_idempotent_operations :
    (∀ (c : Calculator) (t : Stack) (fuelA fuelB : Nat) (c1 : Calculator),
      setTarget c t fuelA fuelB = some c1 → setTarget c1 t fuelA fuelB = some c1) ∧
    (∀ (c : Calculator) (rs : List Recipe) (fuelA fuelB : Nat) (c1 : Calculator),
      addRecipes c rs fuelA fuelB = some c1 →
      ∃ c2, addRecipes c1 rs fuelA fuelB = some c2 ∧ c2.steps = c1.steps) := by
  constructor
  · intro c t fA fB c1 h
    unfold setTarget recompute at h ⊢
    cases hc : calcSteps (lookupRecipe c.recipes) c.initialMaterials t fA fB with
    | none => rw [hc] at h; cases h
    | some s =>
      rw [hc] at h
      cases h
      rw [hc]
  · intro c rs fA fB c1 h
    unfold addRecipes recompute at h ⊢
    have hfun : lookupRecipe (insertRecipes rs (insertRecipes rs c.recipes)) =
        lookupRecipe (insertRecipes rs c.recipes) := by
      funext k
      exact mapGet_insertRecipes_idem rs c.recipes k
    cases hc : calcSteps (lookupRecipe (insertRecipes rs c.recipes))
        c.initialMaterials c.target fA fB with
    | none => rw [hc] at h; cases h
    | some s =>
      rw [hc] at h
      cases h
      rw [hfun, hc]
      exact ⟨_, rfl, rfl⟩

/-- Witness for C7 at concrete inputs: setting target `A (1)` twice on a
fresh calculator, and adding the charcoal recipe twice, both reproduce
the first call's plan. -/
theorem c7_witness :
    setTarget (⟨[], ⟨"A", 1⟩, [], [(rawRecipe "A", 1)]⟩ : Calculator) ⟨"A", 1⟩ 3 1 =
      some ⟨[], ⟨"A", 1⟩, [], [(rawRecipe "A", 1)]⟩ ∧
    ∃ c2, addRecipes
        (⟨[("Charcoal", ⟨⟨"Charcoal", 1⟩, "Furnace", [⟨"Oak Log", 1⟩]⟩)], ⟨"Air", 1⟩, [],
          [(rawRecipe "Air", 1)]⟩ : Calculator)
        [⟨⟨"Charcoal", 1⟩, "Furnace", [⟨"Oak Log", 1⟩]⟩] 3 1 = some c2 ∧
      c2.steps = [(rawRecipe "Air", 1)] := by
  constructor
  · exact c7_idempotent_operations.1 Calculator.new ⟨"A", 1⟩ 3 1
      ⟨[], ⟨"A", 1⟩, [], [(rawRecipe "A", 1)]⟩ (by decide)
  · exact c7_idempotent_operations.2 Calculator.new
      [⟨⟨"Charcoal", 1⟩, "Furnace", [⟨"Oak Log", 1⟩]⟩] 3 1
      ⟨[("Charcoal", ⟨⟨"Charcoal", 1⟩, "Furnace", [⟨"Oak Log", 1⟩]⟩)], ⟨"Air", 1⟩, [],
        [(rawRecipe "Air", 1)]⟩ (by decide)

/-! ### Claim C9 (amended): raw-material-only targets -/

theorem runA_succ (recipes : String → Option Recipe) (fuel : Nat) (st : AState) :
    runA recipes (fuel + 1) st =
      match popMin st.queue with
      | none => some st
      | some ((item, _), q') =>
        match processItem recipes { st with queue := q' } item with
        | none => none
        | some st' => runA recipes fuel st' := rfl

/-- Claim C9 (amended): for every target `⟨i, n⟩` with positive count whose
item has no catalog recipe and no positive pre-supplied pool count, the
recomputed plan is exactly one "Raw Material" step for the full target
count.  (The amendment adds the positivity and empty-pool-entry
conditions forced by the counterexample.) -/
theorem c9_raw_material_plan
    (recipes : String → Option Recipe) (pool : List (String × Nat))
    (i : String) (n : Nat) (fuelA fuelB : Nat)
    (hrec : recipes i = none) (hpool : getCount pool i = 0) (hn : 0 < n) :
    calcSteps recipes pool ⟨i, n⟩ (fuelA + 2) fuelB = some [(rawRecipe i, n)] := by
  have hmd : materialsDraw pool i n = (pool, 0, n) := by
    unfold materialsDraw
    cases hmg : mapGet pool i with
    | none => rfl
    | some avail =>
      have h0 : avail = 0 := by simpa [getCount, hmg] using hpool
      subst h0
      simp
  have hpi : processItem recipes (⟨pool, [], [(i, n)], [], []⟩ : AState) i =
      some ⟨pool, [], [], [], [(rawRecipe i, n)]⟩ := by
    unfold processItem
    have hget : mapGet [(i, n)] i = some n := by simp [mapGet]
    have hcd : craftedDraw [] i n = ([], n) := rfl
    have hrm : mapRemove [(i, n)] i = [] := by simp [mapRemove]
    simp only [hget, hcd, hrm, hmd, hrec]
    simp [hn]
  have hrun : runA recipes (fuelA + 2) (initialAState pool ⟨i, n⟩) =
      some ⟨pool, [], [], [], [(rawRecipe i, n)]⟩ := by
    have h2 : fuelA + 2 = (fuelA + 1) + 1 := rfl
    rw [h2, runA_succ]
    have h1 : popMin [(i, 0)] = some ((i, 0), []) := rfl
    simp only [initialAState, h1]
    show (match processItem recipes (⟨pool, [], [(i, n)], [], []⟩ : AState) i with
      | none => none
      | some st' => runA recipes (fuelA + 1) st') = _
    simp only [hpi]
    rw [runA_succ]
    rfl
  unfold calcSteps
  rw [hrun]
  have hp1 : partitionMethod "Raw Material" [(rawRecipe i, n)] =
      ([(i, (rawRecipe i, n))], []) := by
    simp [partitionMethod, partitionMethodAux, bucketAdd, rawRecipe, mapGet]
  have hp2 : partitionMethod "In Storage" ([] : List (Recipe × Nat)) = ([], []) := rfl
  simp only [hp1, hp2]
  cases fuelB <;> simp [runB]

/-- Witness for C9 at a concrete input: target `X (3)`, empty catalog, a pool
holding only an unrelated item. -/
theorem c9_witness :
    lookupRecipe [] "X" = none ∧ getCount [("Y", 0)] "X" = 0 ∧ (0 : Nat) < 3 ∧
    calcSteps (lookupRecipe []) [("Y", 0)] ⟨"X", 3⟩ (0 + 2) 5 = some [(rawRecipe "X", 3)] :=
  ⟨by decide, by decide, by decide,
   c9_raw_material_plan (lookupRecipe []) [("Y", 0)] "X" 3 0 5 (by decide) (by decide)
     (by decide)⟩

/-! ### Claim C3: termination on acyclic catalogs -/

theorem runA_mono (recipes : String → Option Recipe) :
    ∀ fuel st out, runA recipes fuel st = some out →
      ∀ fuel2, fuel ≤ fuel2 → runA recipes fuel2 st = some out := by
  intro fuel
  induction fuel with
  | zero => intro st out h; cases h
  | succ f ih =>
    intro st out h fuel2 hle
    obtain ⟨f2, rfl⟩ : ∃ f2, fuel2 = f2 + 1 := ⟨fuel2 - 1, by omega⟩
    rw [runA_succ] at h
    rw [runA_succ]
    cases hq : popMin st.queue with
    | none =>
      rw [hq] at h
      exact h
    | some pr =>
      obtain ⟨⟨item, p⟩, q'⟩ := pr
      rw [hq] at h
      have h' : (match processItem recipes { st with queue := q' } item with
          | none => (none : Option AState)
          | some st1 => runA recipes f st1) = some out := h
      show (match processItem recipes { st with queue := q' } item with
          | none => (none : Option AState)
          | some st1 => runA recipes f2 st1) = some out
      cases hp : processItem recipes { st with queue := q' } item with
      | none =>
        rw [hp] at h'
        exact Option.noConfusion h'
      | some st1 =>
        rw [hp] at h'
        exact ih st1 out h' f2 (by omega)

/-- Claim C3 (code_bug evidence): on the catalog `c3Catalog` — whose
dependency graph `X → g → W`, restricted to the items with recipes, is
acyclic, and whose per-execution yields (1 and 2) are positive —
with one `g` pre-supplied and target `X (1)`, the recomputation never
terminates: for every fuel bound for both loops it fails to complete.
Phase B reaches the state `c3Stalled`, a fixed point of `stage` with a
non-empty pending list: the merged `from_storage` entry for `g` (four
units under the first-merged pseudo-recipe) never covers the pending
step's need of seven `g`, because the catalog recipe for `g` is labelled
with the reserved method name "In Storage" and was merged into the
storage bucket. -/
theorem c3_acyclic_nontermination :
    ∀ fuelA fuelB,
      calcSteps (lookupRecipe c3Catalog) [("g", 1)] ⟨"X", 1⟩ fuelA fuelB = none := by
  have hstall : ∀ fB, runB fB c3Stalled = none := by
    intro fB
    induction fB with
    | zero => rfl
    | succ f ih =>
      have hs : stage c3Stalled = c3Stalled := by decide
      have hne : c3Stalled.pending.isEmpty = false := rfl
      show runB (f + 1) c3Stalled = none
      unfold runB
      rw [hne, hs]
      simpa using ih
  intro fA fB
  rcases fA with _ | _ | _ | _ | n
  · rfl
  · rfl
  · rfl
  · rfl
  · have h4 : runA (lookupRecipe c3Catalog) 4 (initialAState [("g", 1)] ⟨"X", 1⟩) =
        some c3AfterA := by decide
    have hA := runA_mono (lookupRecipe c3Catalog) 4 _ _ h4 (n + 1 + 1 + 1 + 1) (by omega)
    unfold calcSteps
    rw [hA]
    exact hstall fB

/-! ### Claim C1: the phase-B ordering invariant -/

/-- Claim C1 (code_bug evidence): a plan reached by `add_resource` then
`set_target` on the catalog `c1Catalog` violates the ordering invariant:
`specOrderingInvariant` fails on it, concretely because the entry at
index 3 (the catalog step for `Q`, which consumes four `g`) precedes the
entry at index 4 (the catalog step producing `g`), while the only `g`
available earlier is the two-unit In-Storage entry at index 1. -/
theorem c1_ordering_invariant_violated :
    ((addResource (withRecipes c1Catalog) ⟨"g", 2⟩ 9 9).bind
        (fun c => setTarget c ⟨"R", 1⟩ 9 9)).map Calculator.steps = some c1Plan ∧
    specOrderingInvariant c1Plan = false ∧
    c1Plan[3]? = some (⟨⟨"Q", 1⟩, "Craft", [⟨"g", 4⟩]⟩, 1) ∧
    c1Plan[4]? = some (⟨⟨"g", 1⟩, "Craft", [⟨"W", 1⟩]⟩, 3) := by
  exact ⟨by decide, by decide, by decide, by decide⟩

/-! ### Claim C4: queue behaviour when enqueueing ingredients -/

theorem peekMaxPrio_eq_none (q : PQueue) : peekMaxPrio q = none ↔ q = [] := by
  cases q with
  | nil => simp [peekMaxPrio]
  | cons e t =>
    unfold peekMaxPrio
    cases peekMaxPrio t <;> simp

theorem mapGet_append {α : Type} (l1 l2 : List (String × α)) (k : String) :
    mapGet (l1 ++ l2) k =
      match mapGet l1 k with
      | some v => some v
      | none => mapGet l2 k := by
  induction l1 with
  | nil => simp [mapGet]
  | cons e t ih =>
    obtain ⟨ke, ve⟩ := e
    by_cases h : ke = k <;> simp [mapGet, h, ih]

theorem peekMaxPrio_append_singleton (q : PQueue) (x : String × Nat) :
    peekMaxPrio (q ++ [x]) = some (match peekMaxPrio q with
      | none => x.2
      | some m => max m x.2) := by
  induction q with
  | nil => simp [peekMaxPrio]
  | cons e t ih =>
    show peekMaxPrio (e :: (t ++ [x])) = _
    unfold peekMaxPrio
    rw [ih]
    cases hpt : peekMaxPrio t with
    | none => simp
    | some mt => simp [Nat.max_assoc]

theorem peekMax_mapInsert_ge (q : PQueue) (k : String) (p : Nat) :
    ∀ old, mapGet q k = some old → old ≤ p →
    ∀ pm, peekMaxPrio q = some pm →
    ∃ pm', peekMaxPrio (mapInsert q k p) = some pm' ∧ pm ≤ pm' := by
  induction q with
  | nil => intro old h; cases h
  | cons e t ih =>
    obtain ⟨k1, v1⟩ := e
    intro old hg hop pm hpm
    by_cases h1 : k1 = k
    · subst h1
      have hold : old = v1 := by
        simp [mapGet] at hg
        omega
      subst hold
      have hins : mapInsert ((k1, old) :: t) k1 p = (k1, p) :: t := by
        simp [mapInsert]
      rw [hins]
      unfold peekMaxPrio at hpm ⊢
      cases hpt : peekMaxPrio t with
      | none =>
        rw [hpt] at hpm
        cases hpm
        exact ⟨p, rfl, hop⟩
      | some mt =>
        rw [hpt] at hpm
        cases hpm
        exact ⟨max p mt, rfl, by omega⟩
    · have hins : mapInsert ((k1, v1) :: t) k p = (k1, v1) :: mapInsert t k p := by
        simp [mapInsert, h1]
      have hgt : mapGet t k = some old := by
        simpa [mapGet, h1] using hg
      rw [hins]
      unfold peekMaxPrio at hpm ⊢
      cases hpt : peekMaxPrio t with
      | none =>
        exfalso
        rw [(peekMaxPrio_eq_none t).mp hpt] at hgt
        cases hgt
      | some mt =>
        rw [hpt] at hpm
        cases hpm
        obtain ⟨mt', hmt', hle⟩ := ih old hgt hop mt hpt
        rw [hmt']
        exact ⟨max v1 mt', rfl, by omega⟩

theorem mapGet_pushIncrease_self (q : PQueue) (k : String) (p : Nat) :
    ∃ p1, mapGet (pushIncrease q k p) k = some p1 ∧ p ≤ p1 := by
  unfold pushIncrease
  cases hg : mapGet q k with
  | none =>
    refine ⟨p, ?_, Nat.le_refl p⟩
    rw [mapGet_append, hg]
    simp [mapGet]
  | some old =>
    by_cases hlt : old < p
    · refine ⟨p, ?_, Nat.le_refl p⟩
      simp [hlt, mapGet_mapInsert]
    · refine ⟨old, ?_, Nat.le_of_not_lt hlt⟩
      simp [hlt, hg]

theorem mapGet_pushIncrease_mono (q : PQueue) (k : String) (p : Nat)
    (k0 : String) (p0 : Nat) (h : mapGet q k0 = some p0) :
    ∃ p1, mapGet (pushIncrease q k p) k0 = some p1 ∧ p0 ≤ p1 := by
  unfold pushIncrease
  cases hg : mapGet q k with
  | none =>
    refine ⟨p0, ?_, Nat.le_refl p0⟩
    rw [mapGet_append, h]
  | some old =>
    by_cases hlt : old < p
    · by_cases hk : k = k0
      · subst hk
        have : p0 = old := by rw [h] at hg; cases hg; rfl
        subst this
        refine ⟨p, ?_, by omega⟩
        simp [hlt, mapGet_mapInsert]
      · refine ⟨p0, ?_, Nat.le_refl p0⟩
        simp [hlt, mapGet_mapInsert, hk, h]
    · exact ⟨p0, by simp [hlt, h], Nat.le_refl p0⟩

theorem peekMax_pushIncrease_ge (q : PQueue) (k : String) (p : Nat)
    (pm : Nat) (hpm : peekMaxPrio q = some pm) :
    ∃ pm', peekMaxPrio (pushIncrease q k p) = some pm' ∧ pm ≤ pm' := by
  unfold pushIncrease
  cases hg : mapGet q k with
  | none =>
    rw [peekMaxPrio_append_singleton, hpm]
    exact ⟨max pm p, rfl, by omega⟩
  | some old =>
    by_cases hlt : old < p
    · simp only [hlt, if_pos]
      exact peekMax_mapInsert_ge q k p old hg (Nat.le_of_lt hlt) pm hpm
    · simp only [hlt, if_neg, Nat.not_lt]
      exact ⟨pm, by simpa [hlt] using hpm, Nat.le_refl pm⟩

theorem peekMaxPrio_mem (q : PQueue) (pm : Nat) (h : peekMaxPrio q = some pm) :
    ∃ e ∈ q, e.2 = pm := by
  induction q generalizing pm with
  | nil => cases h
  | cons e t ih =>
    unfold peekMaxPrio at h
    cases hpt : peekMaxPrio t with
    | none =>
      rw [hpt] at h
      cases h
      exact ⟨e, List.mem_cons_self e t, rfl⟩
    | some mt =>
      rw [hpt] at h
      cases h
      by_cases hle : e.2 ≤ mt
      · obtain ⟨e0, he0, hv⟩ := ih mt hpt
        exact ⟨e0, List.mem_cons_of_mem e he0, by omega⟩
      · exact ⟨e, List.mem_cons_self e t, by omega⟩

theorem mem_mapInsert {α : Type} (m : List (String × α)) (k : String) (v : α)
    (e : String × α) (he : e ∈ mapInsert m k v) : e ∈ m ∨ e = (k, v) := by
  induction m with
  | nil => simpa [mapInsert] using he
  | cons e1 t ih =>
    obtain ⟨k1, v1⟩ := e1
    by_cases h1 : k1 = k
    · subst h1
      simp only [mapInsert, if_pos rfl] at he
      rcases List.mem_cons.mp he with h | h
      · right; rw [h]
      · left; exact List.mem_cons_of_mem _ h
    · simp only [mapInsert, if_neg h1] at he
      rcases List.mem_cons.mp he with h | h
      · left; rw [h]; exact List.mem_cons_self _ _
      · rcases ih h with h2 | h2
        · left; exact List.mem_cons_of_mem _ h2
        · right; exact h2

theorem mem_pushIncrease (q : PQueue) (k : String) (p : Nat)
    (e : String × Nat) (he : e ∈ pushIncrease q k p) : e ∈ q ∨ e.2 = p := by
  unfold pushIncrease at he
  cases hg : mapGet q k with
  | none =>
    rw [hg] at he
    have he' : e ∈ q ++ [(k, p)] := he
    rcases List.mem_append.mp he' with h | h
    · left; exact h
    · right; rw [List.mem_singleton.mp h]
  | some old =>
    rw [hg] at he
    have he' : e ∈ (if old < p then mapInsert q k p else q) := he
    by_cases hlt : old < p
    · rw [if_pos hlt] at he'
      rcases mem_mapInsert q k p e he' with h | h
      · left; exact h
      · right; rw [h]
    · rw [if_neg hlt] at he'
      left; exact he'

theorem getCount_addCount_ne (m : List (String × Nat)) (k k' : String) (v : Nat)
    (h : k ≠ k') : getCount (addCount m k v) k' = getCount m k' := by
  simp [getCount, mapGet_addCount_ne m k k' v h]

theorem getCount_mapRemove_ne (m : List (String × Nat)) (k k' : String)
    (h : k ≠ k') : getCount (mapRemove m k) k' = getCount m k' := by
  simp [getCount, mapGet_mapRemove_ne m k k' h]

theorem pushIngredients_queue_spec (r : Nat) :
    ∀ (ings : List Stack) (q : PQueue) (tc : List (String × Nat)),
    (∀ e ∈ q, e.2 + ings.length < USIZE_MAX) →
    ings.length < USIZE_MAX →
    (∀ k0 p0, mapGet q k0 = some p0 →
        ∃ p1, mapGet (pushIngredients ings r q tc).1 k0 = some p1 ∧ p0 ≤ p1) ∧
    (∀ ing ∈ ings, ∃ p, mapGet (pushIngredients ings r q tc).1 ing.item = some p) ∧
    (∀ pm, peekMaxPrio q = some pm →
        ∀ ing ∈ ings, ∃ p, mapGet (pushIngredients ings r q tc).1 ing.item = some p ∧ pm < p) := by
  intro ings
  induction ings with
  | nil =>
    intro q tc hb hlen
    refine ⟨fun k0 p0 h => ⟨p0, h, Nat.le_refl p0⟩, by simp, ?_⟩
    intro pm hpm ing hing
    cases hing
  | cons ing rest ih =>
    intro q tc hb hlen
    have hlen2 : rest.length < USIZE_MAX := by
      have : (ing :: rest).length = rest.length + 1 := rfl
      omega
    cases hqe : peekMaxPrio q with
    | none =>
      have hq0 : q = [] := (peekMaxPrio_eq_none q).mp hqe
      subst hq0
      have h0ne : (0 : Nat) ≠ USIZE_MAX := by decide
      have hunfold : pushIngredients (ing :: rest) r [] tc =
          pushIngredients rest r [(ing.item, 0)]
            (addCount tc ing.item (ing.count * r)) := by
        show pushIngredients rest r
            (pushIncrease (if (0 : Nat) = USIZE_MAX then compact [] else []) ing.item 0)
            (addCount tc ing.item (ing.count * r)) = _
        rw [if_neg h0ne]
        rfl
      have hb2 : ∀ e ∈ [(ing.item, (0 : Nat))], e.2 + rest.length < USIZE_MAX := by
        intro e he
        rw [List.mem_singleton.mp he]
        simpa using hlen2
      obtain ⟨ih1, ih2, ih3⟩ :=
        ih [(ing.item, 0)] (addCount tc ing.item (ing.count * r)) hb2 hlen2
      rw [hunfold]
      refine ⟨?_, ?_, ?_⟩
      · intro k0 p0 h
        cases h
      · intro g hg
        rcases List.mem_cons.mp hg with h | h
        · subst h
          obtain ⟨p1, hp1, _⟩ := ih1 g.item 0 (by simp [mapGet])
          exact ⟨p1, hp1⟩
        · exact ih2 g h
      · intro pm hpm
        cases hpm
    | some pm =>
      obtain ⟨e0, he0, hv0⟩ := peekMaxPrio_mem q pm hqe
      have hpmb : pm + (rest.length + 1) < USIZE_MAX := by
        have := hb e0 he0
        simp only [List.length_cons] at this
        omega
      have hP : (2 : Nat) ^ 64 = 18446744073709551616 := by norm_num
      have hMAX : USIZE_MAX = 18446744073709551615 := by
        unfold USIZE_MAX
        rw [hP]
      have hmod : (pm + 1) % 2 ^ 64 = pm + 1 := by
        apply Nat.mod_eq_of_lt
        rw [hP]
        omega
      have hne : pm + 1 ≠ USIZE_MAX := by omega
      have hunfold : pushIngredients (ing :: rest) r q tc =
          pushIngredients rest r (pushIncrease q ing.item (pm + 1))
            (addCount tc ing.item (ing.count * r)) := by
        show pushIngredients rest r
            (pushIncrease
              (if (match peekMaxPrio q with
                  | some p => (p + 1) % 2 ^ 64
                  | none => 0) = USIZE_MAX then compact q else q)
              ing.item
              (match peekMaxPrio q with
                | some p => (p + 1) % 2 ^ 64
                | none => 0))
            (addCount tc ing.item (ing.count * r)) = _
        rw [hqe]
        show pushIngredients rest r
            (pushIncrease (if (pm + 1) % 2 ^ 64 = USIZE_MAX then compact q else q)
              ing.item ((pm + 1) % 2 ^ 64))
            (addCount tc ing.item (ing.count * r)) = _
        rw [hmod, if_neg hne]
      have hb2 : ∀ e ∈ pushIncrease q ing.item (pm + 1), e.2 + rest.length < USIZE_MAX := by
        intro e he
        rcases mem_pushIncrease q ing.item (pm + 1) e he with h | h
        · have := hb e h
          simp only [List.length_cons] at this
          omega
        · omega
      obtain ⟨ih1, ih2, ih3⟩ :=
        ih (pushIncrease q ing.item (pm + 1)) (addCount tc ing.item (ing.count * r)) hb2 hlen2
      rw [hunfold]
      refine ⟨?_, ?_, ?_⟩
      · intro k0 p0 h
        obtain ⟨p1, hp1, hle1⟩ := mapGet_pushIncrease_mono q ing.item (pm + 1) k0 p0 h
        obtain ⟨p2, hp2, hle2⟩ := ih1 k0 p1 hp1
        exact ⟨p2, hp2, by omega⟩
      · intro g hg
        rcases List.mem_cons.mp hg with h | h
        · subst h
          obtain ⟨p1, hp1, _⟩ := mapGet_pushIncrease_self q g.item (pm + 1)
          obtain ⟨p2, hp2, _⟩ := ih1 g.item p1 hp1
          exact ⟨p2, hp2⟩
        · exact ih2 g h
      · intro pm1 hpm1 g hg
        have hpm1e : pm = pm1 := Option.some.inj hpm1
        subst hpm1e
        rcases List.mem_cons.mp hg with h | h
        · subst h
          obtain ⟨p1, hp1, hle1⟩ := mapGet_pushIncrease_self q g.item (pm + 1)
          obtain ⟨p2, hp2, hle2⟩ := ih1 g.item p1 hp1
          exact ⟨p2, hp2, by omega⟩
        · obtain ⟨pm2, hpm2, hlepm⟩ :=
            peekMax_pushIncrease_ge q ing.item (pm + 1) pm hqe
          obtain ⟨p2, hp2, hgt2⟩ := ih3 pm2 hpm2 g h
          exact ⟨p2, hp2, by omega⟩

theorem pushIngredients_cons_snd (ing : Stack) (rest : List Stack) (r : Nat)
    (q : PQueue) (tc : List (String × Nat)) :
    ∃ q1, pushIngredients (ing :: rest) r q tc =
      pushIngredients rest r q1 (addCount tc ing.item (ing.count * r)) :=
  ⟨_, rfl⟩

theorem pushIngredients_demand_other (r : Nat) :
    ∀ (ings : List Stack) (q : PQueue) (tc : List (String × Nat)) (g : String),
    (∀ s ∈ ings, s.item ≠ g) →
    getCount (pushIngredients ings r q tc).2 g = getCount tc g := by
  intro ings
  induction ings with
  | nil => intro q tc g _; rfl
  | cons ing rest ih =>
    intro q tc g h
    obtain ⟨q1, hq1⟩ := pushIngredients_cons_snd ing rest r q tc
    rw [hq1, ih q1 _ g (fun s hs => h s (List.mem_cons_of_mem _ hs)),
      getCount_addCount_ne _ _ _ _ (h ing (List.mem_cons_self _ _))]

theorem pushIngredients_demand_once (r : Nat) :
    ∀ (ings : List Stack) (q : PQueue) (tc : List (String × Nat)) (g : String) (cg : Nat),
    ings.filter (fun s => decide (s.item = g)) = [⟨g, cg⟩] →
    getCount (pushIngredients ings r q tc).2 g = getCount tc g + cg * r := by
  intro ings
  induction ings with
  | nil => intro q tc g cg h; cases h
  | cons ing rest ih =>
    intro q tc g cg h
    obtain ⟨q1, hq1⟩ := pushIngredients_cons_snd ing rest r q tc
    rw [hq1]
    by_cases hi : ing.item = g
    · rw [List.filter_cons_of_pos (by simpa using hi)] at h
      injection h with h1 h2
      have hrest : ∀ s ∈ rest, s.item ≠ g := by
        intro s hs
        simpa using List.filter_eq_nil_iff.mp h2 s hs
      rw [pushIngredients_demand_other r rest q1 _ g hrest, h1]
      show getCount (addCount tc (Stack.mk g cg).item ((Stack.mk g cg).count * r)) g = _
      rw [getCount_addCount_self]
    · rw [List.filter_cons_of_neg (by simpa using hi)] at h
      rw [ih q1 _ g cg h, getCount_addCount_ne _ _ _ _ hi]


/-- Claim C4 (amended): when a catalog-recipe step with repeat count `r` is
emitted for a popped item, each of its ingredients ends up present in the
work queue; the priority assigned to each push is one more than the
queue's current maximum (zero for an empty queue) — so whenever the queue
was non-empty at processing time, every ingredient of the recipe ends up
with a priority strictly greater than the old maximum, i.e. it is
scheduled at its deepest, not shallowest, discovered position — an entry
already present never has its priority lowered; and
`ingredient.count * r` is added to the ingredient's outstanding demand.
(The claim's "popped item's depth plus one" is refuted by the
counterexample.)  The two bound hypotheses keep the run inside the
priority range, so the compaction branch is not taken; the draw-pool
hypotheses make the remaining demand the full `c`, as in C2. -/
theorem c4_ingredient_enqueue_amended
    (recipes : String → Option Recipe) (st : AState) (item : String)
    (c : Nat) (rec : Recipe)
    (hd : mapGet st.toCraft item = some c) (hc : 0 < c)
    (hcr : getCount st.crafted item = 0) (hm : getCount st.materials item = 0)
    (hrec : recipes item = some rec) (hY : 0 < rec.result.count)
    (hb : ∀ e ∈ st.queue, e.2 + rec.ingredients.length < USIZE_MAX)
    (hlen : rec.ingredients.length < USIZE_MAX) :
    ∃ st' r, processItem recipes st item = some st' ∧
      st'.steps = st.steps ++ [(rec, r)] ∧
      (∀ ing ∈ rec.ingredients, ∃ p, mapGet st'.queue ing.item = some p) ∧
      (∀ k0 p0, mapGet st.queue k0 = some p0 →
        ∃ p1, mapGet st'.queue k0 = some p1 ∧ p0 ≤ p1) ∧
      (∀ pm, peekMaxPrio st.queue = some pm →
        ∀ ing ∈ rec.ingredients, ∃ p, mapGet st'.queue ing.item = some p ∧ pm < p) ∧
      (∀ g cg, rec.ingredients.filter (fun s => decide (s.item = g)) = [⟨g, cg⟩] →
        g ≠ item → getCount st'.toCraft g = getCount st.toCraft g + cg * r) := by
  obtain ⟨r, hfr, hr1, hrY, hmin⟩ := firstRepeat_spec rec.result.count c hY hc
  have hpi := processItem_craft_eq recipes st item c rec hd hc hcr hm hrec r hfr
  obtain ⟨h1, h2, h3⟩ := pushIngredients_queue_spec r rec.ingredients st.queue
    (mapRemove st.toCraft item) hb hlen
  refine ⟨_, r, hpi, rfl, ?_, ?_, ?_, ?_⟩
  · intro ing hing
    exact h2 ing hing
  · intro k0 p0 h
    exact h1 k0 p0 h
  · intro pm hpm ing hing
    exact h3 pm hpm ing hing
  · intro g cg hfilter hgi
    show getCount
        (pushIngredients rec.ingredients r st.queue (mapRemove st.toCraft item)).2 g = _
    rw [pushIngredients_demand_once r rec.ingredients st.queue _ g cg hfilter,
      getCount_mapRemove_ne st.toCraft item g (fun hh => hgi hh.symm)]

/-- Witness for C4 at a concrete input: popping item `T` (recipe
`T(1) ← A(2), B(1)`, demand 4, repeat count 4) from a queue holding `A`
at priority 5: both ingredients end in the queue above the old maximum 5,
`A`'s priority is only raised, and demands grow by `2*4` and `1*4`. -/
theorem c4_witness :
    ∃ st' r, processItem
        (lookupRecipe [("T", ⟨⟨"T", 1⟩, "Craft", [⟨"A", 2⟩, ⟨"B", 1⟩]⟩)])
        (⟨[], [], [("T", 4), ("A", 1)], [("A", 5)], []⟩ : AState) "T" = some st' ∧
      st'.steps = ([] : List (Recipe × Nat)) ++
        [(⟨⟨"T", 1⟩, "Craft", [⟨"A", 2⟩, ⟨"B", 1⟩]⟩, r)] ∧
      (∀ ing ∈ [Stack.mk "A" 2, Stack.mk "B" 1], ∃ p, mapGet st'.queue ing.item = some p) ∧
      (∀ k0 p0, mapGet [("A", 5)] k0 = some p0 →
        ∃ p1, mapGet st'.queue k0 = some p1 ∧ p0 ≤ p1) ∧
      (∀ pm, peekMaxPrio [("A", 5)] = some pm →
        ∀ ing ∈ [Stack.mk "A" 2, Stack.mk "B" 1],
          ∃ p, mapGet st'.queue ing.item = some p ∧ pm < p) ∧
      (∀ g cg, List.filter (fun s => decide (s.item = g)) [Stack.mk "A" 2, Stack.mk "B" 1] =
          [⟨g, cg⟩] → g ≠ "T" →
        getCount st'.toCraft g = getCount [("T", 4), ("A", 1)] g + cg * r) :=
  c4_ingredient_enqueue_amended
    (lookupRecipe [("T", ⟨⟨"T", 1⟩, "Craft", [⟨"A", 2⟩, ⟨"B", 1⟩]⟩)])
    ⟨[], [], [("T", 4), ("A", 1)], [("A", 5)], []⟩ "T" 4
    ⟨⟨"T", 1⟩, "Craft", [⟨"A", 2⟩, ⟨"B", 1⟩]⟩
    (by decide) (by decide) (by decide) (by decide) (by decide) (by decide)
    (by decide) (by decide)

/-! ### Claims C5 and C10: step provenance and positivity -/

theorem firstRepeat_pos (per count r : Nat) (h : firstRepeat per count = some r) :
    1 ≤ r := by
  unfold firstRepeat at h
  have hmem := List.mem_of_find?_eq_some h
  rw [List.mem_range'_1] at hmem
  exact hmem.1

/-- Every step appended by one pass of the phase-A loop body has a positive
repeat count, and its recipe is the item's storage pseudo-recipe, its raw
pseudo-recipe, or the item's catalog recipe. -/
theorem processItem_steps (recipes : String → Option Recipe) (st : AState)
    (item : String) (st' : AState) (h : processItem recipes st item = some st') :
    ∃ new, st'.steps = st.steps ++ new ∧
      ∀ s ∈ new, 0 < s.2 ∧
        (s.1 = storageRecipe item ∨ s.1 = rawRecipe item ∨ recipes item = some s.1) := by
  unfold processItem at h
  split at h
  next heq =>
    cases h
    exact ⟨[], by simp, by simp⟩
  next c0 heq =>
    split at h
    next rec hrec =>
      dsimp only [] at h
      split at h
      next h1 =>
        split at h
        next hfr => cases h
        next r hfr =>
          cases h
          by_cases hm1 :
              0 < (materialsDraw st.materials item (craftedDraw st.crafted item c0).2).2.1
          · refine ⟨[(storageRecipe item,
                (materialsDraw st.materials item (craftedDraw st.crafted item c0).2).2.1),
                (rec, r)], by simp [hm1], ?_⟩
            intro s hs
            simp only [List.mem_cons, List.not_mem_nil, or_false] at hs
            rcases hs with rfl | rfl
            · exact ⟨hm1, Or.inl rfl⟩
            · exact ⟨firstRepeat_pos _ _ _ hfr, Or.inr (Or.inr hrec)⟩
          · refine ⟨[(rec, r)], by simp [hm1], ?_⟩
            intro s hs
            simp only [List.mem_cons, List.not_mem_nil, or_false] at hs
            subst hs
            exact ⟨firstRepeat_pos _ _ _ hfr, Or.inr (Or.inr hrec)⟩
      next h1 =>
        cases h
        by_cases hm1 :
            0 < (materialsDraw st.materials item (craftedDraw st.crafted item c0).2).2.1
        · refine ⟨[(storageRecipe item,
              (materialsDraw st.materials item (craftedDraw st.crafted item c0).2).2.1)],
              by simp [hm1], ?_⟩
          intro s hs
          simp only [List.mem_cons, List.not_mem_nil, or_false] at hs
          subst hs
          exact ⟨hm1, Or.inl rfl⟩
        · exact ⟨[], by simp [hm1], by simp⟩
    next hrec =>
      dsimp only [] at h
      split at h
      next h1 =>
        cases h
        by_cases hm1 :
            0 < (materialsDraw st.materials item (craftedDraw st.crafted item c0).2).2.1
        · refine ⟨[(storageRecipe item,
              (materialsDraw st.materials item (craftedDraw st.crafted item c0).2).2.1),
              (rawRecipe item,
                (materialsDraw st.materials item (craftedDraw st.crafted item c0).2).2.2)],
              by simp [hm1], ?_⟩
          intro s hs
          simp only [List.mem_cons, List.not_mem_nil, or_false] at hs
          rcases hs with rfl | rfl
          · exact ⟨hm1, Or.inl rfl⟩
          · exact ⟨h1, Or.inr (Or.inl rfl)⟩
        · refine ⟨[(rawRecipe item,
              (materialsDraw st.materials item (craftedDraw st.crafted item c0).2).2.2)],
              by simp [hm1], ?_⟩
          intro s hs
          simp only [List.mem_cons, List.not_mem_nil, or_false] at hs
          subst hs
          exact ⟨h1, Or.inr (Or.inl rfl)⟩
      next h1 =>
        cases h
        by_cases hm1 :
            0 < (materialsDraw st.materials item (craftedDraw st.crafted item c0).2).2.1
        · refine ⟨[(storageRecipe item,
              (materialsDraw st.materials item (craftedDraw st.crafted item c0).2).2.1)],
              by simp [hm1], ?_⟩
          intro s hs
          simp only [List.mem_cons, List.not_mem_nil, or_false] at hs
          subst hs
          exact ⟨hm1, Or.inl rfl⟩
        · exact ⟨[], by simp [hm1], by simp⟩

theorem mapGet_mem {α : Type} (m : List (String × α)) (k : String) (v : α)
    (h : mapGet m k = some v) : (k, v) ∈ m := by
  induction m with
  | nil => cases h
  | cons e t ih =>
    obtain ⟨k1, v1⟩ := e
    by_cases h1 : k1 = k
    · subst h1
      simp only [mapGet, if_pos rfl] at h
      cases h
      exact List.mem_cons_self _ _
    · simp only [mapGet, if_neg h1] at h
      exact List.mem_cons_of_mem _ (ih h)

theorem mapRemove_sub {α : Type} (m : List (String × α)) (k : String)
    (e : String × α) (he : e ∈ mapRemove m k) : e ∈ m := by
  induction m with
  | nil => cases he
  | cons e1 t ih =>
    obtain ⟨k1, v1⟩ := e1
    by_cases h1 : k1 = k
    · subst h1
      simp only [mapRemove, if_pos rfl] at he
      exact List.mem_cons_of_mem _ he
    · simp only [mapRemove, if_neg h1] at he
      rcases List.mem_cons.mp he with h | h
      · rw [h]; exact List.mem_cons_self _ _
      · exact List.mem_cons_of_mem _ (ih h)

theorem bucketAdd_good (P : Recipe × Nat → Prop)
    (Hadd : ∀ (r1 : Recipe) (a : Nat) (r2 : Recipe) (b : Nat),
      P (r1, a) → P (r2, b) → P (r1, a + b))
    (b : List (String × (Recipe × Nat))) (rec : Recipe) (n : Nat)
    (hb : ∀ e ∈ b, P e.2) (hP : P (rec, n)) :
    ∀ e ∈ bucketAdd b rec n, P e.2 := by
  intro e he
  unfold bucketAdd at he
  cases hg : mapGet b rec.result.item with
  | none =>
    rw [hg] at he
    rcases List.mem_append.mp he with h | h
    · exact hb e h
    · rw [List.mem_singleton.mp h]
      exact hP
  | some rn =>
    rw [hg] at he
    rcases mem_mapInsert _ _ _ e he with h | h
    · exact hb e h
    · rw [h]
      have hself : P (rn.1, rn.2) := hb _ (mapGet_mem _ _ _ hg)
      exact Hadd rn.1 rn.2 rec n hself hP

theorem consumeStorage_good (P : Recipe × Nat → Prop)
    (Hmul : ∀ (r1 : Recipe) (a : Nat) (r2 : Recipe) (b : Nat),
      P (r1, a) → P (r2, b) → P (r1, a * b))
    (recX : Recipe) (repeats : Nat) (hrep : P (recX, repeats)) :
    ∀ (ings : List Stack) (checked : List (Recipe × Nat)) (av : List String)
      (fs : List (String × (Recipe × Nat))),
    (∀ s ∈ checked, P s) → (∀ e ∈ fs, P e.2) →
    (∀ s ∈ (consumeStorage ings repeats checked av fs).1, P s) ∧
    (∀ e ∈ (consumeStorage ings repeats checked av fs).2.2, P e.2) := by
  intro ings
  induction ings with
  | nil => intro checked av fs hc hf; exact ⟨hc, hf⟩
  | cons ing rest ih =>
    intro checked av fs hc hf
    show (∀ s ∈ (match mapGet fs ing.item with
      | none => consumeStorage rest repeats checked av fs
      | some rn => consumeStorage rest repeats (checked ++ [(rn.1, rn.2 * repeats)])
          (av ++ [ing.item]) (mapRemove fs ing.item)).1, P s) ∧
      (∀ e ∈ (match mapGet fs ing.item with
      | none => consumeStorage rest repeats checked av fs
      | some rn => consumeStorage rest repeats (checked ++ [(rn.1, rn.2 * repeats)])
          (av ++ [ing.item]) (mapRemove fs ing.item)).2.2, P e.2)
    cases hg : mapGet fs ing.item with
    | none => exact ih checked av fs hc hf
    | some rn =>
      refine ih (checked ++ [(rn.1, rn.2 * repeats)]) (av ++ [ing.item])
        (mapRemove fs ing.item) ?_ ?_
      · intro s hs
        rcases List.mem_append.mp hs with h | h
        · exact hc s h
        · rw [List.mem_singleton.mp h]
          have hself : P (rn.1, rn.2) := hf _ (mapGet_mem _ _ _ hg)
          exact Hmul rn.1 rn.2 recX repeats hself hrep
      · intro e he
        exact hf e (mapRemove_sub _ _ e he)

theorem stageScan_good (P : Recipe × Nat → Prop)
    (Hadd : ∀ (r1 : Recipe) (a : Nat) (r2 : Recipe) (b : Nat),
      P (r1, a) → P (r2, b) → P (r1, a + b))
    (Hmul : ∀ (r1 : Recipe) (a : Nat) (r2 : Recipe) (b : Nat),
      P (r1, a) → P (r2, b) → P (r1, a * b)) :
    ∀ (scan checked : List (Recipe × Nat)) (av : List String)
      (fs cur : List (String × (Recipe × Nat))) (tmp : List (Recipe × Nat)),
    (∀ s ∈ scan, P s) → (∀ s ∈ checked, P s) → (∀ e ∈ fs, P e.2) →
    (∀ e ∈ cur, P e.2) → (∀ s ∈ tmp, P s) →
    (∀ s ∈ (stageScan scan checked av fs cur tmp).1, P s) ∧
    (∀ e ∈ (stageScan scan checked av fs cur tmp).2.2.1, P e.2) ∧
    (∀ e ∈ (stageScan scan checked av fs cur tmp).2.2.2.1, P e.2) ∧
    (∀ s ∈ (stageScan scan checked av fs cur tmp).2.2.2.2, P s) := by
  intro scan
  induction scan with
  | nil =>
    intro checked av fs cur tmp _ hc hf hcur htmp
    exact ⟨hc, hf, hcur, htmp⟩
  | cons e rest ih =>
    intro checked av fs cur tmp hsc hc hf hcur htmp
    obtain ⟨rec, n⟩ := e
    have hPn : P (rec, n) := hsc _ (List.mem_cons_self _ _)
    have hrest : ∀ s ∈ rest, P s := fun s hs => hsc s (List.mem_cons_of_mem _ hs)
    rw [stageScan]
    by_cases hcond : rec.ingredients.all (eligibleB av fs n) = true
    · rw [if_pos hcond]
      obtain ⟨hcs1, hcs2⟩ :=
        consumeStorage_good P Hmul rec n hPn rec.ingredients checked av fs hc hf
      exact ih (consumeStorage rec.ingredients n checked av fs).1
        (consumeStorage rec.ingredients n checked av fs).2.1
        (consumeStorage rec.ingredients n checked av fs).2.2
        (bucketAdd cur rec n) tmp hrest hcs1 hcs2
        (bucketAdd_good P Hadd cur rec n hcur hPn) htmp
    · rw [if_neg hcond]
      refine ih checked av fs cur (tmp ++ [(rec, n)]) hrest hc hf hcur ?_
      intro s hs
      rcases List.mem_append.mp hs with h | h
      · exact htmp s h
      · rw [List.mem_singleton.mp h]
        exact hPn

theorem stage_good (P : Recipe × Nat → Prop)
    (Hadd : ∀ (r1 : Recipe) (a : Nat) (r2 : Recipe) (b : Nat),
      P (r1, a) → P (r2, b) → P (r1, a + b))
    (Hmul : ∀ (r1 : Recipe) (a : Nat) (r2 : Recipe) (b : Nat),
      P (r1, a) → P (r2, b) → P (r1, a * b))
    (st : BState)
    (hc : ∀ s ∈ st.checked, P s) (hf : ∀ e ∈ st.fromStorage, P e.2)
    (hp : ∀ s ∈ st.pending, P s) :
    (∀ s ∈ (stage st).checked, P s) ∧ (∀ e ∈ (stage st).fromStorage, P e.2) ∧
    (∀ s ∈ (stage st).pending, P s) := by
  obtain ⟨h1, h2, h3, h4⟩ :=
    stageScan_good P Hadd Hmul st.pending st.checked st.available st.fromStorage [] []
      hp hc hf (by simp) (by simp)
  unfold stage
  refine ⟨?_, h2, h4⟩
  intro s hs
  rcases List.mem_append.mp hs with h | h
  · exact h1 s h
  · obtain ⟨e, he, rfl⟩ := List.mem_map.mp h
    exact h3 e he

theorem runB_good (P : Recipe × Nat → Prop)
    (Hadd : ∀ (r1 : Recipe) (a : Nat) (r2 : Recipe) (b : Nat),
      P (r1, a) → P (r2, b) → P (r1, a + b))
    (Hmul : ∀ (r1 : Recipe) (a : Nat) (r2 : Recipe) (b : Nat),
      P (r1, a) → P (r2, b) → P (r1, a * b)) :
    ∀ (fuel : Nat) (st : BState) (plan : List (Recipe × Nat)),
    runB fuel st = some plan →
    (∀ s ∈ st.checked, P s) → (∀ e ∈ st.fromStorage, P e.2) →
    (∀ s ∈ st.pending, P s) →
    ∀ s ∈ plan, P s := by
  intro fuel
  induction fuel with
  | zero =>
    intro st plan h hc hf hp
    unfold runB at h
    split at h
    · cases h
      exact hc
    · cases h
  | succ f ih =>
    intro st plan h hc hf hp
    unfold runB at h
    split at h
    · cases h
      exact hc
    · obtain ⟨g1, g2, g3⟩ := stage_good P Hadd Hmul st hc hf hp
      exact ih (stage st) plan h g1 g2 g3

theorem partitionMethodAux_good (P : Recipe × Nat → Prop)
    (Hadd : ∀ (r1 : Recipe) (a : Nat) (r2 : Recipe) (b : Nat),
      P (r1, a) → P (r2, b) → P (r1, a + b))
    (m : String) :
    ∀ (l : List (Recipe × Nat)) (b : List (String × (Recipe × Nat)))
      (r0 : List (Recipe × Nat)),
    (∀ e ∈ b, P e.2) → (∀ s ∈ r0, P s) → (∀ s ∈ l, P s) →
    (∀ e ∈ (partitionMethodAux m b r0 l).1, P e.2) ∧
    (∀ s ∈ (partitionMethodAux m b r0 l).2, P s) := by
  intro l
  induction l with
  | nil => intro b r0 hb hr _; exact ⟨hb, hr⟩
  | cons e rest ih =>
    intro b r0 hb hr hl
    obtain ⟨rec, n⟩ := e
    have hPn : P (rec, n) := hl _ (List.mem_cons_self _ _)
    have hrest : ∀ s ∈ rest, P s := fun s hs => hl s (List.mem_cons_of_mem _ hs)
    rw [partitionMethodAux]
    by_cases hcond : rec.method = m
    · rw [if_pos hcond]
      exact ih (bucketAdd b rec n) r0 (bucketAdd_good P Hadd b rec n hb hPn) hr hrest
    · rw [if_neg hcond]
      refine ih b (r0 ++ [(rec, n)]) hb ?_ hrest
      intro s hs
      rcases List.mem_append.mp hs with h | h
      · exact hr s h
      · rw [List.mem_singleton.mp h]
        exact hPn

theorem runA_steps_good (recipes : String → Option Recipe) :
    ∀ (fuel : Nat) (st out : AState), runA recipes fuel st = some out →
    (∀ s ∈ st.steps, 0 < s.2 ∧ ∃ it,
      s.1 = storageRecipe it ∨ s.1 = rawRecipe it ∨ recipes it = some s.1) →
    ∀ s ∈ out.steps, 0 < s.2 ∧ ∃ it,
      s.1 = storageRecipe it ∨ s.1 = rawRecipe it ∨ recipes it = some s.1 := by
  intro fuel
  induction fuel with
  | zero => intro st out h; cases h
  | succ f ih =>
    intro st out h hst
    rw [runA_succ] at h
    cases hq : popMin st.queue with
    | none =>
      rw [hq] at h
      cases h
      exact hst
    | some pr =>
      obtain ⟨⟨item, p⟩, q'⟩ := pr
      rw [hq] at h
      have h' : (match processItem recipes { st with queue := q' } item with
          | none => (none : Option AState)
          | some st1 => runA recipes f st1) = some out := h
      cases hp : processItem recipes { st with queue := q' } item with
      | none =>
        rw [hp] at h'
        exact Option.noConfusion h'
      | some st1 =>
        rw [hp] at h'
        refine ih st1 out h' ?_
        obtain ⟨new, hnew, hgood⟩ := processItem_steps recipes _ item st1 hp
        rw [hnew]
        intro s hs
        rcases List.mem_append.mp hs with hmem | hmem
        · exact hst s hmem
        · obtain ⟨hpos, hshape⟩ := hgood s hmem
          exact ⟨hpos, ⟨item, hshape⟩⟩

/-- Master provenance lemma: every entry of a completed recomputation has a
positive repeat count, and its recipe is a storage pseudo-recipe, a raw
pseudo-recipe, or a catalog recipe. -/
theorem calcSteps_good (recipes : String → Option Recipe) (pool : List (String × Nat))
    (target : Stack) (fuelA fuelB : Nat) (plan : List (Recipe × Nat))
    (h : calcSteps recipes pool target fuelA fuelB = some plan) :
    ∀ s ∈ plan, 0 < s.2 ∧ ∃ it,
      s.1 = storageRecipe it ∨ s.1 = rawRecipe it ∨ recipes it = some s.1 := by
  have Hadd : ∀ (r1 : Recipe) (a : Nat) (r2 : Recipe) (b : Nat),
      (fun s : Recipe × Nat => 0 < s.2 ∧ ∃ it,
        s.1 = storageRecipe it ∨ s.1 = rawRecipe it ∨ recipes it = some s.1) (r1, a) →
      (fun s : Recipe × Nat => 0 < s.2 ∧ ∃ it,
        s.1 = storageRecipe it ∨ s.1 = rawRecipe it ∨ recipes it = some s.1) (r2, b) →
      (fun s : Recipe × Nat => 0 < s.2 ∧ ∃ it,
        s.1 = storageRecipe it ∨ s.1 = rawRecipe it ∨ recipes it = some s.1) (r1, a + b) := by
    intro r1 a r2 b ⟨ha, hsa⟩ ⟨hb, _⟩
    exact ⟨by omega, hsa⟩
  have Hmul : ∀ (r1 : Recipe) (a : Nat) (r2 : Recipe) (b : Nat),
      (fun s : Recipe × Nat => 0 < s.2 ∧ ∃ it,
        s.1 = storageRecipe it ∨ s.1 = rawRecipe it ∨ recipes it = some s.1) (r1, a) →
      (fun s : Recipe × Nat => 0 < s.2 ∧ ∃ it,
        s.1 = storageRecipe it ∨ s.1 = rawRecipe it ∨ recipes it = some s.1) (r2, b) →
      (fun s : Recipe × Nat => 0 < s.2 ∧ ∃ it,
        s.1 = storageRecipe it ∨ s.1 = rawRecipe it ∨ recipes it = some s.1) (r1, a * b) := by
    intro r1 a r2 b ⟨ha, hsa⟩ ⟨hb, _⟩
    exact ⟨Nat.mul_pos ha hb, hsa⟩
  unfold calcSteps at h
  cases hA : runA recipes fuelA (initialAState pool target) with
  | none => rw [hA] at h; cases h
  | some stA =>
    rw [hA] at h
    have hgood := runA_steps_good recipes fuelA _ stA hA (by simp [initialAState])
    have h' : runB fuelB
        ⟨(partitionMethod "Raw Material" stA.steps).1.map (fun e => e.2),
         (partitionMethod "Raw Material" stA.steps).1.map (fun e => e.1),
         (partitionMethod "In Storage" (partitionMethod "Raw Material" stA.steps).2).1,
         (partitionMethod "In Storage" (partitionMethod "Raw Material" stA.steps).2).2⟩ =
        some plan := h
    obtain ⟨hb1, hb2⟩ := partitionMethodAux_good _ Hadd "Raw Material" stA.steps [] []
      (by simp) (by simp) hgood
    obtain ⟨hc1, hc2⟩ := partitionMethodAux_good _ Hadd "In Storage"
      (partitionMethod "Raw Material" stA.steps).2 [] [] (by simp) (by simp) hb2
    refine runB_good _ Hadd Hmul fuelB _ plan h' ?_ hc1 hc2
    intro s hs
    obtain ⟨e, he, rfl⟩ := List.mem_map.mp hs
    exact hb1 e he

/-- Claim C10: every entry of every completed recomputation has a strictly
positive repeat count — `steps()` never yields a `(recipe, 0)` pair, for
any catalog, any pre-supplied pool (zero-count pool entries included) and
any target. -/
theorem c10_steps_positive (recipes : String → Option Recipe)
    (pool : List (String × Nat)) (target : Stack) (fuelA fuelB : Nat)
    (plan : List (Recipe × Nat)) (h : calcSteps recipes pool target fuelA fuelB = some plan) :
    ∀ s ∈ plan, 0 < s.2 :=
  fun s hs => (calcSteps_good recipes pool target fuelA fuelB plan h s hs).1

/-- Witness for C10 at a concrete input: a pool holding a zero-count entry
(as after `add_resource` of a zero-count stack) and target `A (2)`. -/
theorem c10_witness :
    calcSteps (lookupRecipe []) [("X", 0)] ⟨"A", 2⟩ 2 1 = some [(rawRecipe "A", 2)] ∧
    0 < (rawRecipe "A", (2 : Nat)).2 :=
  ⟨by decide,
   c10_steps_positive (lookupRecipe []) [("X", 0)] ⟨"A", 2⟩ 2 1 [(rawRecipe "A", 2)]
     (by decide) (rawRecipe "A", 2) (by decide)⟩

/-- Claim C5 (amended): every synthetic step the engine emits — every step
whose method label is "Raw Material" or "In Storage", under a catalog
whose own recipes use neither reserved label — carries a pseudo-recipe
with result count 1 whose ingredient list is exactly the one stack
`⟨produced item, 1⟩`: the pseudo-recipes are self-producing with the item
itself as sole ingredient, not with an empty ingredient list (the
counterexample refutes the claim's "empty" wording). -/
theorem c5_synthetic_steps_shape (recipes : String → Option Recipe)
    (pool : List (String × Nat)) (target : Stack) (fuelA fuelB : Nat)
    (plan : List (Recipe × Nat))
    (hcat : ∀ k r, recipes k = some r →
      r.method ≠ "Raw Material" ∧ r.method ≠ "In Storage")
    (h : calcSteps recipes pool target fuelA fuelB = some plan) :
    ∀ s ∈ plan, (s.1.method = "Raw Material" ∨ s.1.method = "In Storage") →
      s.1.result.count = 1 ∧ s.1.ingredients = [⟨s.1.result.item, 1⟩] := by
  intro s hs hm
  obtain ⟨-, it, hshape⟩ := calcSteps_good recipes pool target fuelA fuelB plan h s hs
  rcases hshape with h1 | h1 | h1
  · rw [h1]
    exact ⟨rfl, rfl⟩
  · rw [h1]
    exact ⟨rfl, rfl⟩
  · exfalso
    obtain ⟨hn1, hn2⟩ := hcat it s.1 h1
    rcases hm with hm | hm
    · exact hn1 hm
    · exact hn2 hm

/-- Witness for C5 at a concrete input: the plan for recipe `C(1) ← X(2)`
with one `X` pre-supplied and target `C (1)` contains a Raw Material step
and an In Storage step; the In Storage step's pseudo-recipe has result
count 1 and itself as sole ingredient. -/
theorem c5_witness :
    calcSteps (lookupRecipe [("C", ⟨⟨"C", 1⟩, "Craft", [⟨"X", 2⟩]⟩)]) [("X", 1)]
        ⟨"C", 1⟩ 9 9 =
      some [(rawRecipe "X", 1), (storageRecipe "X", 1),
        (⟨⟨"C", 1⟩, "Craft", [⟨"X", 2⟩]⟩, 1)] ∧
    ((storageRecipe "X").result.count = 1 ∧
      (storageRecipe "X").ingredients = [⟨(storageRecipe "X").result.item, 1⟩]) := by
  constructor
  · decide
  · refine c5_synthetic_steps_shape
      (lookupRecipe [("C", ⟨⟨"C", 1⟩, "Craft", [⟨"X", 2⟩]⟩)]) [("X", 1)] ⟨"C", 1⟩ 9 9
      [(rawRecipe "X", 1), (storageRecipe "X", 1), (⟨⟨"C", 1⟩, "Craft", [⟨"X", 2⟩]⟩, 1)]
      ?_ (by decide) (storageRecipe "X", 1) (by decide) (Or.inr rfl)
    intro k r h
    by_cases hk : "C" = k
    · subst hk
      have hr : r = ⟨⟨"C", 1⟩, "Craft", [⟨"X", 2⟩]⟩ := by
        simp [lookupRecipe, mapGet] at h
        exact h.symm
      rw [hr]
      exact ⟨by decide, by decide⟩
    · simp [lookupRecipe, mapGet, hk] at h
